import Mathlib

/-!
Verification of the smart-planning-poker session engine.

The development shallowly embeds the repository's core logic:
* the voting utilities (`getResultType`, `getConsensusVote`,
  `isParticipantOnline`, `getLastOccurrenceIds`) from `src/lib/votingUtils.ts`,
* the session state machine from `src/lib/sessionManager.ts` (the persisted
  Redis/KV variant); operations absent from the snapshot are modelled from the
  spec and pinned by `sessionManager.test.ts`,
* the client history bound from the session page component, and
* the HTTP vote route from `src/app/api/sessions/[id]/vote/route.ts`.

Timestamps are modelled as integers (milliseconds); JS `string | null` becomes
`Option String`; JS mutation of a session fetched from the store becomes a
functional update followed by a store write.
-/

namespace PlanningPoker

/-- Participant roles, from `src/types/poker.ts`:
`type ParticipantRole = 'voter' | 'observer'`.
(Older variants of the session manager spell the voter role `'estimator'`;
both name the same role, the one allowed to cast votes.) -/
inductive Role
  | voter
  | observer
deriving DecidableEq, Repr

/-- A participant, from `src/types/poker.ts` (`interface Participant`):
`id`, `name`, `role`, `vote: string | null`, `avatar`,
`lastHeartbeat?: string` (an ISO timestamp, modelled as parsed milliseconds). -/
structure Participant where
  id : String
  name : String
  role : Role
  vote : Option String
  avatar : String
  lastHeartbeat : Option Int
deriving DecidableEq, Repr

/-- Result categories, from `votingUtils.ts`:
`type ResultType = 'consensus' | 'majority' | 'joint' | 'none'`. -/
inductive ResultType
  | consensus
  | majority
  | joint
  | none
deriving DecidableEq, Repr

/-- A history entry, from `src/types/poker.ts` (`interface HistoryEntry`):
`id`, `story`, `vote`, `timestamp`. -/
structure HistoryEntry where
  id : String
  story : String
  vote : String
  timestamp : Int
deriving DecidableEq, Repr

/-! ### Voting utilities (`src/lib/votingUtils.ts`) -/

/-- Step 1 of `getResultType` (and of `getConsensusVote`):
`participants.filter(p => p.role === 'voter').map(p => p.vote).filter(v => v !== null)`.
The final filter both drops `null`s and unwraps, hence `filterMap id`. -/
def allVotes (participants : List Participant) : List String :=
  ((participants.filter fun p => p.role = Role.voter).map fun p => p.vote).filterMap id

/-- The body of the `reduce` in `getResultType`:
`acc[vote] = (acc[vote] || 0) + 1` on a JS object used as a map.
A JS object keeps insertion order, updates in place, and appends new keys at
the end, which is exactly this association-list update. -/
def bump : List (String × Nat) → String → List (String × Nat)
  | [], v => [(v, 1)]
  | (k, n) :: rest, v =>
      if k = v then (k, n + 1) :: rest else (k, n) :: bump rest v

/-- `const voteCounts = allVotes.reduce((acc, vote) => { acc[vote] = (acc[vote] || 0) + 1; return acc; }, {})`. -/
def voteCounts (votes : List String) : List (String × Nat) :=
  votes.foldl bump []

/-- `const maxCount = Math.max(...Object.values(voteCounts))`.
`Object.values` of the object is the list of stored counts.  All counts are
at least 1, and the list is non-empty whenever `votes` is, so folding `max`
from 0 agrees with JS `Math.max` on every reachable input. -/
def maxCount (votes : List String) : Nat :=
  ((voteCounts votes).map Prod.snd).foldl max 0

/-- `const majorityVotes = Object.entries(voteCounts).filter(([, count]) => count === maxCount).map(([vote]) => vote)`. -/
def majorityVotes (votes : List String) : List String :=
  ((voteCounts votes).filter fun p => p.2 = maxCount votes).map Prod.fst

/-- Proof device for reasoning about `bump`: the count stored for a key in an
association list (0 when absent), summing duplicates of the key if any. -/
def cnt : List (String × Nat) → String → Nat
  | [], _ => 0
  | (k, n) :: rest, w => if k = w then n + cnt rest w else cnt rest w

/-- `getResultType` from `votingUtils.ts`:
empty vote list is `'none'`; 2+ identical votes are `'consensus'`;
several values tied for the highest count are `'joint'`; otherwise `'majority'`. -/
def getResultType (participants : List Participant) : ResultType :=
  let votes := allVotes participants
  if votes.length = 0 then ResultType.none
  else if votes.length > 1 ∧ (majorityVotes votes).length = 1 ∧
      maxCount votes = votes.length then ResultType.consensus
  else if (majorityVotes votes).length > 1 then ResultType.joint
  else ResultType.majority

/-- `getConsensusVote` from `votingUtils.ts`: the common value when at least two
votes were cast and `allVotes.every(v => v === firstVote)`, else `null`. -/
def getConsensusVote (participants : List Participant) : Option String :=
  let votes := allVotes participants
  if votes.length < 2 then Option.none
  else
    match votes with
    | [] => Option.none
    | firstVote :: rest =>
        if rest.all fun v => v = firstVote then some firstVote else Option.none

/-- `export const OFFLINE_THRESHOLD = 30000`. -/
def OFFLINE_THRESHOLD : Int := 30000

/-- `isParticipantOnline` from `votingUtils.ts`: offline when no heartbeat was
ever recorded, otherwise online iff `now - lastHeartbeat < OFFLINE_THRESHOLD`.
The ISO-string timestamp is modelled already parsed to milliseconds. -/
def isParticipantOnline (participant : Participant) (now : Int) : Bool :=
  match participant.lastHeartbeat with
  | Option.none => false
  | some lastHeartbeat => now - lastHeartbeat < OFFLINE_THRESHOLD

/-- JS `Set.add` on a set represented by its insertion-ordered element list. -/
def setAdd (s : List String) (x : String) : List String :=
  if x ∈ s then s else s ++ [x]

/-- One iteration of the backward loop in `getLastOccurrenceIds`:
`if (!seenVotes.has(vote)) { seenVotes.add(vote); lastOfVoteIds.add(history[i].id); }`. -/
def lastOccLoop : List String × List String → HistoryEntry → List String × List String
  | (seenVotes, lastOfVoteIds), e =>
      if e.vote ∈ seenVotes then (seenVotes, lastOfVoteIds)
      else (seenVotes ++ [e.vote], setAdd lastOfVoteIds e.id)

/-- `getLastOccurrenceIds` from `votingUtils.ts`: the loop
`for (let i = history.length - 1; i >= 0; i--)` visits the entries of
`history.reverse` in order, so it is a left fold over the reversed list. -/
def getLastOccurrenceIds (history : List HistoryEntry) : List String :=
  (history.reverse.foldl lastOccLoop ([], [])).2

/-! ### Reference classification, written from the spec's words (spec.md §4.2):
frequencies of each distinct value in `V`, `maxCount` the highest frequency,
`M` the set of values achieving it. -/

/-- Spec §4.2 step 3: the highest frequency among the distinct values of `V`. -/
def specMaxFreq (votes : List String) : Nat :=
  votes.toFinset.sup fun v => votes.count v

/-- Spec §4.2 step 3: `M`, the set of values achieving the highest frequency. -/
def specTiedSet (votes : List String) : Finset String :=
  votes.toFinset.filter fun v => votes.count v = specMaxFreq votes

/-- The spec's reference classification (spec.md §4.2, restated in claim C1):
`'none'` if `V` is empty; `'consensus'` if `|V| > 1` and every vote in `V` is
the same value; otherwise `'joint'` if two or more distinct values tie for the
highest frequency; otherwise `'majority'`. -/
def specResultType (participants : List Participant) : ResultType :=
  let votes := allVotes participants
  if votes.isEmpty then ResultType.none
  else if 1 < votes.length ∧ ∀ v ∈ votes, ∀ w ∈ votes, v = w then
    ResultType.consensus
  else if 2 ≤ (specTiedSet votes).card then ResultType.joint
  else ResultType.majority

/-! ### Session state machine (`src/lib/sessionManager.ts`)

The persisted variant: every operation reads the session from the key-value
store, mutates it, and writes it back with a fresh `lastActivity`.  The store
is modelled as an association list keyed by session id (the `session:` key
prefix adds nothing and is dropped).  The operations `addParticipant` (with
avatars), `reset` (clearing the story), `updateAvatar`, `updateHeartbeat` and
`removeParticipant` of the current module are not part of the source snapshot
— only their unit tests (`sessionManager.test.ts`) and HTTP callers are — and
are modelled from the spec where so marked. -/

/-- A session, from `sessionManager.ts` (`interface Session`): `id`, `name`,
`participants`, `revealed`, `story`, `storyLocked`, `createdAt`,
`lastActivity` (ISO timestamps modelled as milliseconds). -/
structure Session where
  id : String
  name : String
  participants : List Participant
  revealed : Bool
  story : String
  storyLocked : Bool
  createdAt : Int
  lastActivity : Int
deriving DecidableEq, Repr

/-- The key-value store holding the sessions, keyed by session id. -/
abbrev Store : Type := List (String × Session)

/-- `getSession`: `client.get(sessionKey(id))`, the first binding of the key. -/
def getSession : Store → String → Option Session
  | [], _ => Option.none
  | (k, s) :: rest, id => if k = id then some s else getSession rest id

/-- `client.set(sessionKey(session.id), session)`: overwrite the binding of
the session's id, or add one if absent. -/
def putSession : Store → Session → Store
  | [], s => [(s.id, s)]
  | (k, old) :: rest, s =>
      if k = s.id then (k, s) :: rest else (k, old) :: putSession rest s

/-- `updateSession` from `sessionManager.ts`: stamp `lastActivity` with the
current time and write the session back to the store. -/
def updateSession (store : Store) (now : Int) (s : Session) : Store :=
  putSession store { s with lastActivity := now }

/-- `createSession` from `sessionManager.ts`: a fresh session with no
participants, hidden votes and an empty story. -/
def createSession (now : Int) (id name : String) : Session :=
  { id := id, name := name, participants := [], revealed := false,
    story := "", storyLocked := false, createdAt := now, lastActivity := now }

/-- In-place mutation of the participant object returned by
`participants.find(p => p.id === participantId)` (equivalently, assignment at
`findIndex`): rewrite the first entry whose id matches, keep the rest. -/
def updateFirst (l : List Participant) (pid : String)
    (f : Participant → Participant) : List Participant :=
  match l with
  | [] => []
  | p :: rest => if p.id = pid then f p :: rest else p :: updateFirst rest pid f

/-- Modelled from the spec: the current `addParticipant` of `sessionManager.ts`
is missing from the snapshot (only older avatar-less variants, its unit tests
and its HTTP callers are present).  Spec §4.1 `join`: create the session with
a default name when absent; on rejoin update `name` and `role` but preserve
the existing `vote`, and preserve the existing `avatar` unless it is empty, in
which case accept the supplied one; otherwise insert a new participant with
`vote = null` and the supplied avatar.  (Per the unit tests, a fresh join also
records a first heartbeat.) -/
def addParticipant (store : Store) (now : Int)
    (sessionId participantId name : String) (role : Role) (avatar : String) :
    Store × Option Participant :=
  let session :=
    match getSession store sessionId with
    | some s => s
    | Option.none => createSession now sessionId "Planning Session"
  let participants :=
    match session.participants.find? fun p => p.id = participantId with
    | some existing =>
        updateFirst session.participants participantId fun _ =>
          { id := participantId, name := name, role := role,
            vote := existing.vote,
            avatar := if existing.avatar = "" then avatar else existing.avatar,
            lastHeartbeat := existing.lastHeartbeat }
    | Option.none =>
        session.participants ++
          [{ id := participantId, name := name, role := role,
             vote := Option.none, avatar := avatar,
             lastHeartbeat := some now }]
  let session := { session with participants := participants }
  (updateSession store now session,
    participants.find? fun p => p.id = participantId)

/-- `vote` from `sessionManager.ts` (lines 137-147 of the persisted variant,
which spells the voter role `'estimator'`): not applied when the session or
participant is missing or the participant's role is not the voting one;
otherwise the participant's `vote` is set to the given value (possibly
`null`) and the session is written back. -/
def vote (store : Store) (now : Int) (sessionId participantId : String)
    (voteValue : Option String) : Store × Bool :=
  match getSession store sessionId with
  | Option.none => (store, false)
  | some session =>
      match session.participants.find? fun p => p.id = participantId with
      | Option.none => (store, false)
      | some participant =>
          if participant.role = Role.voter then
            (updateSession store now
              { session with
                participants := updateFirst session.participants participantId
                  fun p => { p with vote := voteValue } }, true)
          else (store, false)

/-- `reveal` from `sessionManager.ts`: set `revealed = true`. -/
def reveal (store : Store) (now : Int) (sessionId : String) : Store × Bool :=
  match getSession store sessionId with
  | Option.none => (store, false)
  | some session =>
      (updateSession store now { session with revealed := true }, true)

/-- Modelled from the spec: the current `reset` of `sessionManager.ts` is
missing from the snapshot (the older variant present does not clear the
story; the current behaviour is pinned by its unit test "resets revealed,
story, storyLocked, and voter votes").  Spec §4.1 `reset`: set
`revealed = false`, clear `story` and `storyLocked`, and null the vote of
every participant whose role is voter, leaving observers untouched. -/
def reset (store : Store) (now : Int) (sessionId : String) : Store × Bool :=
  match getSession store sessionId with
  | Option.none => (store, false)
  | some session =>
      (updateSession store now
        { session with revealed := false, story := "", storyLocked := false,
                       participants := session.participants.map fun p =>
                         if p.role = Role.voter then { p with vote := Option.none }
                         else p }, true)

/-- `updateStory` from `sessionManager.ts`: set both fields verbatim. -/
def updateStory (store : Store) (now : Int) (sessionId story : String)
    (storyLocked : Bool) : Store × Bool :=
  match getSession store sessionId with
  | Option.none => (store, false)
  | some session =>
      (updateSession store now
        { session with story := story, storyLocked := storyLocked }, true)

/-- Modelled from the spec: `updateAvatar` is missing from the snapshot (only
its unit tests and the avatar route calling it are present).  Spec §4.1:
fails if the session or participant is absent, otherwise overwrites the
participant's avatar. -/
def updateAvatar (store : Store) (now : Int)
    (sessionId participantId avatar : String) : Store × Bool :=
  match getSession store sessionId with
  | Option.none => (store, false)
  | some session =>
      match session.participants.find? fun p => p.id = participantId with
      | Option.none => (store, false)
      | some _ =>
          (updateSession store now
            { session with
              participants := updateFirst session.participants participantId
                fun p => { p with avatar := avatar } }, true)

/-- Modelled from the spec: `updateHeartbeat` is missing from the snapshot
(only its unit tests are present).  Spec §4.1 `heartbeat`: fails if the
session or participant is absent, otherwise records the current time as the
participant's `lastHeartbeat`. -/
def updateHeartbeat (store : Store) (now : Int)
    (sessionId participantId : String) : Store × Bool :=
  match getSession store sessionId with
  | Option.none => (store, false)
  | some session =>
      match session.participants.find? fun p => p.id = participantId with
      | Option.none => (store, false)
      | some _ =>
          (updateSession store now
            { session with
              participants := updateFirst session.participants participantId
                fun p => { p with lastHeartbeat := some now } }, true)

/-- Modelled from the spec: the current `removeParticipant` is missing from
the snapshot (only its unit tests are present).  Spec §4.1 `leave`: removes
the participant entirely; fails if the session or participant is absent. -/
def removeParticipant (store : Store) (now : Int)
    (sessionId participantId : String) : Store × Bool :=
  match getSession store sessionId with
  | Option.none => (store, false)
  | some session =>
      match session.participants.find? fun p => p.id = participantId with
      | Option.none => (store, false)
      | some _ =>
          (updateSession store now
            { session with
              participants :=
                session.participants.filter fun p =>
                  !(p.id = participantId : Bool) },
            true)

/-- Well-formedness of the store: every binding's key is its session's id.
Every write in the source is `set(sessionKey(session.id), session)`, so all
stores arising from the operations satisfy this. -/
def Store.WF (store : Store) : Prop := ∀ kv ∈ store, kv.1 = kv.2.id

instance (store : Store) : Decidable store.WF := by
  unfold Store.WF; infer_instance

/-! ### Client history bound (`src/app/session/[id]/page.tsx`) -/

/-- The history append of the session page (both in the `session-state`
handler and in `saveToHistory`):
`const newHistory = [...prev, entry]; if (newHistory.length > 8) return newHistory.slice(-8); return newHistory;`
(`slice(-8)` keeps the final 8 entries). -/
def appendHistory (prev : List HistoryEntry) (entry : HistoryEntry) :
    List HistoryEntry :=
  let newHistory := prev ++ [entry]
  if newHistory.length > 8 then newHistory.drop (newHistory.length - 8)
  else newHistory

/-! ### The HTTP vote route (`src/app/api/sessions/[id]/vote/route.ts`) -/

/-- The parsed JSON body of a vote request: `participantId` and `vote`, each
possibly absent or `null`. -/
structure VoteRequest where
  participantId : Option String
  vote : Option String
deriving DecidableEq, Repr

/-- The route's observable outcome: a 400 error payload, or a 200 with the
updated session broadcast and returned. -/
inductive VoteResponse
  | badRequest (error : String)
  | ok (session : Option Session)
deriving DecidableEq, Repr

/-- JS falsiness of a `string | null | undefined` field: `null`, `undefined`
and the empty string are falsy. -/
def falsyStr : Option String → Bool
  | Option.none => true
  | some s => s = ""

/-- `POST` of the vote route: reject with 400 when
`!participantId || !voteValue`, otherwise call `vote` and reject with 400
when it was not applied, else respond with the updated session. -/
def votePOST (store : Store) (now : Int) (sessionId : String)
    (req : VoteRequest) : Store × VoteResponse :=
  if falsyStr req.participantId || falsyStr req.vote then
    (store, VoteResponse.badRequest "ParticipantId and vote are required")
  else
    match req.participantId with
    | Option.none =>
        (store, VoteResponse.badRequest "ParticipantId and vote are required")
    | some pid =>
        let r := vote store now sessionId pid req.vote
        if r.2 then (r.1, VoteResponse.ok (getSession r.1 sessionId))
        else (r.1, VoteResponse.badRequest "Failed to vote")

/-! ### The operation language for reachability (claim C7) -/

/-- One client-triggered operation of the session state machine. -/
inductive Op
  | createOp (id name : String)
  | joinOp (sessionId participantId name : String) (role : Role) (avatar : String)
  | voteOp (sessionId participantId : String) (value : Option String)
  | revealOp (sessionId : String)
  | resetOp (sessionId : String)
  | storyOp (sessionId story : String) (locked : Bool)
  | avatarOp (sessionId participantId avatar : String)
  | heartbeatOp (sessionId participantId : String)
  | leaveOp (sessionId participantId : String)
deriving DecidableEq, Repr

/-- The state effect of one operation, applied at time `now`. -/
def step (store : Store) (now : Int) : Op → Store
  | Op.createOp id name => putSession store (createSession now id name)
  | Op.joinOp sid pid nm role av => (addParticipant store now sid pid nm role av).1
  | Op.voteOp sid pid v => (vote store now sid pid v).1
  | Op.revealOp sid => (reveal store now sid).1
  | Op.resetOp sid => (reset store now sid).1
  | Op.storyOp sid story locked => (updateStory store now sid story locked).1
  | Op.avatarOp sid pid av => (updateAvatar store now sid pid av).1
  | Op.heartbeatOp sid pid => (updateHeartbeat store now sid pid).1
  | Op.leaveOp sid pid => (removeParticipant store now sid pid).1

/-- Run a timed sequence of operations from a store. -/
def run (store : Store) : List (Int × Op) → Store
  | [] => store
  | (now, op) :: rest => run (step store now op) rest

/-- The invariant of claim C7: in every session of the store, every
participant whose role is observer has a null vote. -/
def ObserverVotesNull (store : Store) : Prop :=
  ∀ kv ∈ store, ∀ p ∈ kv.2.participants,
    p.role = Role.observer → p.vote = Option.none

instance (store : Store) : Decidable (ObserverVotesNull store) := by
  unfold ObserverVotesNull; infer_instance

/-- A voter who has cast a vote rejoins as an observer: the rejoin updates the
role but preserves the vote, leaving an observer with a non-null vote. -/
def c7Trace : List (Int × Op) :=
  [(0, Op.joinOp "s" "p" "ann" Role.voter "dog"),
   (1, Op.voteOp "s" "p" (some "5")),
   (2, Op.joinOp "s" "p" "ann" Role.observer "dog")]

/-- The side condition under which the observer-vote invariant is restored:
a join may assign the observer role only when the (re)joined participant does
not currently hold a vote. -/
def okOp (store : Store) : Op → Bool
  | Op.joinOp sid pid _ role _ =>
      if role = Role.observer then
        match getSession store sid with
        | Option.none => true
        | some s =>
            s.participants.all fun p =>
              if p.id = pid then p.vote = Option.none else true
      else true
  | _ => true

/-- `okOp` holding along a whole trace. -/
def okTrace : Store → List (Int × Op) → Bool
  | _, [] => true
  | store, (now, op) :: rest => okOp store op && okTrace (step store now op) rest

/-- `c7Trace` with the final rejoin staying a voter: a trace satisfying the
side condition. -/
def c7GoodTrace : List (Int × Op) :=
  [(0, Op.joinOp "s" "p" "ann" Role.voter "dog"),
   (1, Op.voteOp "s" "p" (some "5")),
   (2, Op.joinOp "s" "q" "bob" Role.observer "cat")]

/-! ### Concrete inputs used by examples and witnesses -/

/-- The worked history of spec.md §8: `[(A,5),(B,8),(C,5)]`, oldest first. -/
def c6Example : List HistoryEntry :=
  [⟨"A", "s1", "5", 0⟩, ⟨"B", "s2", "8", 1⟩, ⟨"C", "s3", "5", 2⟩]

/-- A demo session: a voter who has voted, an observer, a locked story. -/
def demoSession : Session :=
  { id := "s", name := "Sprint",
    participants :=
      [⟨"v1", "Ann", Role.voter, some "5", "dog", Option.none⟩,
       ⟨"o1", "Bob", Role.observer, Option.none, "cat", Option.none⟩],
    revealed := true, story := "login flow", storyLocked := true,
    createdAt := 0, lastActivity := 0 }

/-- A one-session demo store. -/
def demoStore : Store := [("s", demoSession)]

/-! ## Lemmas about the store -/

theorem getSession_putSession (st : Store) (s : Session) (k : String) :
    getSession (putSession st s) k =
      if k = s.id then some s else getSession st k := by
  induction st with
  | nil =>
      by_cases h : s.id = k
      · simp [putSession, getSession, h]
      · simp [putSession, getSession, h, Ne.symm h]
  | cons kv rest ih =>
      rcases kv with ⟨k1, s1⟩
      simp only [putSession]
      by_cases h1 : k1 = s.id
      · rw [if_pos h1]
        simp only [getSession]
        by_cases h2 : k1 = k
        · rw [if_pos h2, if_pos (h2 ▸ h1 : k = s.id)]
        · rw [if_neg h2, if_neg (fun h : k = s.id => h2 (h ▸ h1 ▸ rfl)),
            if_neg h2]
      · rw [if_neg h1]
        simp only [getSession]
        by_cases h2 : k1 = k
        · rw [if_pos h2, if_neg (fun h : k = s.id => h1 (h2.trans h)),
            if_pos h2]
        · rw [if_neg h2, ih, if_neg h2]

theorem putSession_WF {st : Store} (hwf : st.WF) (s : Session) :
    (putSession st s).WF := by
  induction st with
  | nil =>
      intro kv hkv
      simp [putSession] at hkv
      simp [hkv]
  | cons kv0 rest ih =>
      obtain ⟨k1, s1⟩ := kv0
      have hhead : k1 = s1.id := hwf (k1, s1) (by simp)
      have htail : Store.WF rest := by
        intro kv hkv; exact hwf kv (by simp [hkv])
      intro kv hkv
      by_cases h1 : k1 = s.id
      · simp [putSession, h1] at hkv
        rcases hkv with hkv | hkv
        · simp [hkv, h1]
        · exact htail kv hkv
      · simp [putSession, h1] at hkv
        rcases hkv with hkv | hkv
        · simp [hkv, hhead]
        · exact ih htail kv hkv

theorem getSession_id {st : Store} (hwf : st.WF) {k : String} {s : Session}
    (h : getSession st k = some s) : s.id = k := by
  induction st with
  | nil => simp [getSession] at h
  | cons kv rest ih =>
      obtain ⟨k1, s1⟩ := kv
      have hhead : k1 = s1.id := hwf (k1, s1) (by simp)
      have htail : Store.WF rest := by
        intro kv hkv; exact hwf kv (by simp [hkv])
      by_cases h1 : k1 = k
      · simp [getSession, h1] at h
        simp [← h, ← hhead, h1]
      · simp [getSession, h1] at h
        exact ih htail h

/-! ## Lemmas about `updateFirst` -/

theorem updateFirst_length (l : List Participant) (pid : String)
    (f : Participant → Participant) :
    (updateFirst l pid f).length = l.length := by
  induction l with
  | nil => rfl
  | cons p rest ih =>
      by_cases h : p.id = pid <;> simp [updateFirst, h, ih]

theorem updateFirst_decomp {l : List Participant} {pid : String}
    (f : Participant → Participant) {q : Participant}
    (h : l.find? (fun p => p.id = pid) = some q) :
    ∃ pre post, l = pre ++ q :: post ∧ (∀ r ∈ pre, r.id ≠ pid) ∧
      q.id = pid ∧ updateFirst l pid f = pre ++ f q :: post := by
  induction l with
  | nil => simp [List.find?] at h
  | cons p rest ih =>
      by_cases hp : p.id = pid
      · have : p = q := by simpa [List.find?, hp] using h
        subst this
        exact ⟨[], rest, rfl, by simp, hp, by simp [updateFirst, hp]⟩
      · have h' : rest.find? (fun p => p.id = pid) = some q := by
          simpa [List.find?, hp] using h
        obtain ⟨pre, post, hl, hpre, hq, hu⟩ := ih h'
        refine ⟨p :: pre, post, by simp [hl], ?_, hq, by simp [updateFirst, hp, hu]⟩
        intro r hr
        rcases List.mem_cons.mp hr with hr | hr
        · exact hr ▸ hp
        · exact hpre r hr

theorem forall₂_map_self {α β : Type} (r : α → β → Prop) (f : α → β)
    (l : List α) (h : ∀ x ∈ l, r x (f x)) : List.Forall₂ r l (l.map f) := by
  induction l with
  | nil => exact List.Forall₂.nil
  | cons x xs ih =>
      exact List.Forall₂.cons (h x (by simp))
        (ih fun y hy => h y (by simp [hy]))

/-! ## Claim C5: the presence evaluator -/

/-- C5: `isParticipantOnline` returns false when `lastHeartbeat` is unset, and
otherwise returns true iff `now - lastHeartbeat` is strictly below the
30000 ms threshold; in particular it is online at a gap of exactly
`threshold - 1` and offline at a gap of exactly the threshold. -/
theorem isParticipantOnline_spec (p : Participant) (now : Int) :
    (p.lastHeartbeat = Option.none → isParticipantOnline p now = false) ∧
    (∀ t, p.lastHeartbeat = some t →
      (isParticipantOnline p now = true ↔ now - t < OFFLINE_THRESHOLD)) ∧
    (∀ t, p.lastHeartbeat = some t → now - t = OFFLINE_THRESHOLD - 1 →
      isParticipantOnline p now = true) ∧
    (∀ t, p.lastHeartbeat = some t → now - t = OFFLINE_THRESHOLD →
      isParticipantOnline p now = false) := by
  refine ⟨?_, ?_, ?_, ?_⟩
  · intro h; simp [isParticipantOnline, h]
  · intro t ht; simp [isParticipantOnline, ht]
  · intro t ht hgap
    simp only [isParticipantOnline, ht, OFFLINE_THRESHOLD] at hgap ⊢
    simp only [decide_eq_true_eq]
    omega
  · intro t ht hgap
    simp only [isParticipantOnline, ht, OFFLINE_THRESHOLD] at hgap ⊢
    simp only [decide_eq_false_iff_not]
    omega

/-- Closed instance of C5 at the two boundary gaps. -/
theorem isParticipantOnline_spec_witness :
    isParticipantOnline ⟨"p", "n", Role.voter, Option.none, "a", some 0⟩ 29999 = true ∧
    isParticipantOnline ⟨"p", "n", Role.voter, Option.none, "a", some 0⟩ 30000 = false := by
  exact ⟨(isParticipantOnline_spec _ 29999).2.2.1 0 rfl (by decide),
         (isParticipantOnline_spec _ 30000).2.2.2 0 rfl (by decide)⟩

/-! ## Claim C9: the client history bound -/

/-- C9: appending to the history keeps at most 8 entries — the result's
length is `min (|prev| + 1) 8` — the result is a suffix of `prev ++ [entry]`
(entries are only appended and never reordered, and on overflow the oldest
entries are the ones evicted), and with 8 or fewer entries the append is
plain. -/
theorem appendHistory_spec (prev : List HistoryEntry) (e : HistoryEntry) :
    (appendHistory prev e).length = min (prev.length + 1) 8 ∧
    appendHistory prev e <:+ prev ++ [e] ∧
    (prev.length + 1 ≤ 8 → appendHistory prev e = prev ++ [e]) := by
  simp only [appendHistory]
  by_cases h : (prev ++ [e]).length > 8
  · rw [if_pos h]
    simp only [List.length_append, List.length_singleton] at h
    refine ⟨?_, List.drop_suffix _ _, ?_⟩
    · simp only [List.length_drop, List.length_append, List.length_singleton]
      omega
    · intro hle; omega
  · rw [if_neg h]
    simp only [List.length_append, List.length_singleton] at h
    refine ⟨?_, List.suffix_refl _, fun _ => rfl⟩
    simp only [List.length_append, List.length_singleton]
    omega

/-- Closed instance of C9: an overflowing append on a concrete 8-entry
history keeps the most recent 8. -/
theorem appendHistory_spec_witness :
    ((List.range 8).map fun i => (⟨toString i, "", "5", 0⟩ : HistoryEntry)).length + 1 ≤ 9 ∧
    appendHistory ((List.range 8).map fun i => ⟨toString i, "", "5", 0⟩) ⟨"x", "", "3", 0⟩ <:+
      (((List.range 8).map fun i => ⟨toString i, "", "5", 0⟩) ++ [⟨"x", "", "3", 0⟩]) := by
  exact ⟨by decide,
    (appendHistory_spec ((List.range 8).map fun i => ⟨toString i, "", "5", 0⟩)
      ⟨"x", "", "3", 0⟩).2.1⟩

/-! ## Claim C8: the HTTP vote route rejects a null vote -/

/-- C8 (failing input): on a store holding session `"s"` with voter `"v1"`,
a request body `{ participantId: "v1", vote: null }` is rejected by the
route's `if (!participantId || !voteValue)` guard with a 400 and no state
change, even though the state machine's `vote` accepts exactly this call
(null clears the vote) — the boundary contradicts both the spec and its own
caller, which sends `vote: null` to toggle a card off. -/
theorem votePOST_rejects_null_vote :
    (votePOST demoStore 1 "s" ⟨some "v1", Option.none⟩).1 = demoStore ∧
    (votePOST demoStore 1 "s" ⟨some "v1", Option.none⟩).2 =
      VoteResponse.badRequest "ParticipantId and vote are required" ∧
    (vote demoStore 1 "s" "v1" Option.none).2 = true := by
  exact ⟨rfl, rfl, rfl⟩

/-! ## Claim C2: reset -/

/-- C2: `reset` fails (returns false) exactly when the session does not
exist; on an existing session it stores back a session with `revealed`
false, an empty story, `storyLocked` false, every voter's vote cleared to
null, and every observer's record unchanged. -/
theorem reset_spec (store : Store) (now : Int) (sid : String)
    (hwf : store.WF) :
    ((reset store now sid).2 = false ↔ getSession store sid = Option.none) ∧
    ∀ s, getSession store sid = some s →
      ∃ s', getSession (reset store now sid).1 sid = some s' ∧
        s'.revealed = false ∧ s'.story = "" ∧ s'.storyLocked = false ∧
        List.Forall₂ (fun p p' =>
            (p.role = Role.voter → p' = { p with vote := Option.none }) ∧
            (p.role = Role.observer → p' = p))
          s.participants s'.participants := by
  cases hg : getSession store sid with
  | none =>
      refine ⟨by simp [reset, hg], ?_⟩
      intro s hs
      exact absurd hs.symm (by simp)
  | some s0 =>
      have hid : s0.id = sid := getSession_id hwf hg
      refine ⟨by simp [reset, hg], ?_⟩
      intro s hs
      obtain rfl : s0 = s := Option.some.inj hs
      refine ⟨{ s0 with revealed := false, story := "", storyLocked := false,
                        lastActivity := now,
                        participants := s0.participants.map fun p =>
                         if p.role = Role.voter then
                           { p with vote := Option.none }
                         else p }, ?_, rfl, rfl, rfl, ?_⟩
      · simp only [reset, hg, updateSession]
        rw [getSession_putSession, if_pos]
        exact hid.symm
      · apply forall₂_map_self
        intro p _
        constructor
        · intro hv; rw [if_pos hv]
        · intro ho
          rw [if_neg]
          rw [ho]
          intro h
          exact absurd h (by simp)

/-- Closed instance of C2 on the demo store: the voter's vote is cleared,
the observer untouched, the story fields reset. -/
theorem reset_spec_witness :
    getSession demoStore "s" = some demoSession ∧
    ∃ s', getSession (reset demoStore 7 "s").1 "s" = some s' ∧
      s'.revealed = false ∧ s'.story = "" ∧ s'.storyLocked = false ∧
      List.Forall₂ (fun p p' =>
          (p.role = Role.voter → p' = { p with vote := Option.none }) ∧
          (p.role = Role.observer → p' = p))
        demoSession.participants s'.participants :=
  ⟨rfl, (reset_spec demoStore 7 "s" (by decide)).2 demoSession rfl⟩

/-! ## Claim C3: join / rejoin -/

/-- C3: `addParticipant` creates a missing session with the default name; a
new participant is appended with a null vote and the supplied avatar; a
rejoin rewrites exactly the existing entry, updating `name` and `role`,
preserving the stored `vote`, and preserving the stored `avatar` unless it
is empty, in which case the supplied avatar is accepted. -/
theorem addParticipant_spec (store : Store) (now : Int) (sid pid nm : String)
    (role : Role) (av : String) (hwf : store.WF) :
    (getSession store sid = Option.none →
      ∃ s', getSession (addParticipant store now sid pid nm role av).1 sid = some s' ∧
        s'.name = "Planning Session" ∧
        s'.participants = [⟨pid, nm, role, Option.none, av, some now⟩]) ∧
    ∀ s, getSession store sid = some s →
      ((∀ p ∈ s.participants, p.id ≠ pid) →
        ∃ s', getSession (addParticipant store now sid pid nm role av).1 sid = some s' ∧
          s'.name = s.name ∧
          s'.participants =
            s.participants ++ [⟨pid, nm, role, Option.none, av, some now⟩]) ∧
      ∀ existing, s.participants.find? (fun p => p.id = pid) = some existing →
        ∃ pre post, s.participants = pre ++ existing :: post ∧
          ∃ s', getSession (addParticipant store now sid pid nm role av).1 sid = some s' ∧
            s'.name = s.name ∧
            s'.participants = pre ++
              (⟨pid, nm, role, existing.vote,
                if existing.avatar = "" then av else existing.avatar,
                existing.lastHeartbeat⟩ : Participant) :: post := by
  cases hg : getSession store sid with
  | none =>
      refine ⟨?_, ?_⟩
      · intro _
        refine ⟨{ id := sid, name := "Planning Session",
                  participants := [⟨pid, nm, role, Option.none, av, some now⟩],
                  revealed := false, story := "", storyLocked := false,
                  createdAt := now, lastActivity := now }, ?_, rfl, rfl⟩
        simp only [addParticipant, hg, createSession, List.find?, updateSession]
        rw [getSession_putSession, if_pos]
        · rfl
        · rfl
      · intro s hs
        exact absurd hs.symm (by simp)
  | some s0 =>
      have hid : s0.id = sid := getSession_id hwf hg
      refine ⟨?_, ?_⟩
      · intro h
        exact absurd h.symm (by simp)
      · intro s hs
        obtain rfl : s0 = s := Option.some.inj hs
        refine ⟨?_, ?_⟩
        · intro hnone
          have hfind : s0.participants.find? (fun p => p.id = pid) = Option.none := by
            rw [List.find?_eq_none]
            intro p hp
            simpa using hnone p hp
          refine ⟨{ s0 with lastActivity := now,
                            participants := s0.participants ++
                              [⟨pid, nm, role, Option.none, av, some now⟩] },
                  ?_, rfl, rfl⟩
          simp only [addParticipant, hg, hfind, updateSession]
          rw [getSession_putSession, if_pos]
          exact hid.symm
        · intro existing hfind
          obtain ⟨pre, post, hl, hpre, hqid, hu⟩ :=
            updateFirst_decomp (fun _ =>
              (⟨pid, nm, role, existing.vote,
                if existing.avatar = "" then av else existing.avatar,
                existing.lastHeartbeat⟩ : Participant)) hfind
          refine ⟨pre, post, hl,
                  { s0 with lastActivity := now,
                            participants := updateFirst s0.participants pid fun _ =>
                              ⟨pid, nm, role, existing.vote,
                               if existing.avatar = "" then av else existing.avatar,
                               existing.lastHeartbeat⟩ },
                  ?_, rfl, hu⟩
          simp only [addParticipant, hg, hfind, updateSession]
          rw [getSession_putSession, if_pos]
          exact hid.symm

/-- Closed instance of C3: a join on an empty store auto-creates the session
with the default name, and a rejoin on the demo store updates the name while
preserving the prior vote and avatar. -/
theorem addParticipant_spec_witness :
    (∃ s', getSession (addParticipant [] 3 "s2" "p1" "Ann" Role.voter "fox").1 "s2" = some s' ∧
      s'.name = "Planning Session" ∧
      s'.participants = [⟨"p1", "Ann", Role.voter, Option.none, "fox", some 3⟩]) ∧
    ∃ pre post,
      demoSession.participants =
        pre ++ (⟨"v1", "Ann", Role.voter, some "5", "dog", Option.none⟩ : Participant) :: post ∧
      ∃ s', getSession (addParticipant demoStore 9 "s" "v1" "Anna" Role.voter "owl").1 "s" = some s' ∧
        s'.name = demoSession.name ∧
        s'.participants = pre ++
          (⟨"v1", "Anna", Role.voter, some "5", "dog", Option.none⟩ : Participant) :: post := by
  refine ⟨(addParticipant_spec [] 3 "s2" "p1" "Ann" Role.voter "fox" (by decide)).1 rfl, ?_⟩
  exact ((addParticipant_spec demoStore 9 "s" "v1" "Anna" Role.voter "owl"
    (by decide)).2 demoSession rfl).2
    ⟨"v1", "Ann", Role.voter, some "5", "dog", Option.none⟩ rfl

/-! ## Claim C4: vote -/

/-- C4: `vote` returns `(store, false)` — the not-applied signal with the
store entirely unchanged — when the session is missing, the participant is
missing, or the participant is an observer; for a voter it returns true and
stores back the session with only that participant's `vote` replaced by the
given value (`null` included), all other fields and participants unchanged. -/
theorem vote_spec (store : Store) (now : Int) (sid pid : String)
    (v : Option String) (hwf : store.WF) :
    (getSession store sid = Option.none →
      vote store now sid pid v = (store, false)) ∧
    ∀ s, getSession store sid = some s →
      (s.participants.find? (fun p => p.id = pid) = Option.none →
        vote store now sid pid v = (store, false)) ∧
      ∀ q, s.participants.find? (fun p => p.id = pid) = some q →
        (q.role = Role.observer → vote store now sid pid v = (store, false)) ∧
        (q.role = Role.voter →
          (vote store now sid pid v).2 = true ∧
          ∃ pre post, s.participants = pre ++ q :: post ∧
            (∀ r ∈ pre, r.id ≠ pid) ∧
            ∃ s', getSession (vote store now sid pid v).1 sid = some s' ∧
              s'.revealed = s.revealed ∧ s'.story = s.story ∧
              s'.storyLocked = s.storyLocked ∧ s'.name = s.name ∧
              s'.participants = pre ++ { q with vote := v } :: post) := by
  cases hg : getSession store sid with
  | none =>
      refine ⟨fun _ => by simp [vote, hg], ?_⟩
      intro s hs
      exact absurd hs.symm (by simp)
  | some s0 =>
      have hid : s0.id = sid := getSession_id hwf hg
      refine ⟨fun h => absurd h.symm (by simp), ?_⟩
      intro s hs
      obtain rfl : s0 = s := Option.some.inj hs
      refine ⟨?_, ?_⟩
      · intro hfind
        simp [vote, hg, hfind]
      · intro q hfind
        refine ⟨?_, ?_⟩
        · intro ho
          have : ¬ q.role = Role.voter := by rw [ho]; intro h; exact absurd h (by simp)
          simp [vote, hg, hfind, this]
        · intro hv
          obtain ⟨pre, post, hl, hpre, hqid, hu⟩ :=
            updateFirst_decomp (fun p => { p with vote := v }) hfind
          refine ⟨?_, pre, post, hl, hpre,
                  { s0 with lastActivity := now,
                            participants := updateFirst s0.participants pid fun p =>
                              { p with vote := v } },
                  ?_, rfl, rfl, rfl, rfl, hu⟩
          · simp [vote, hg, hfind, hv]
          · simp only [vote, hg, hfind, hv, if_pos, updateSession]
            rw [getSession_putSession, if_pos]
            exact hid.symm

/-- Closed instance of C4 on the demo store: the observer's vote is rejected
with the store untouched, and the voter's null vote (toggle off) is applied. -/
theorem vote_spec_witness :
    vote demoStore 2 "s" "o1" (some "8") = (demoStore, false) ∧
    (vote demoStore 2 "s" "v1" Option.none).2 = true := by
  have h1 := (vote_spec demoStore 2 "s" "o1" (some "8") (by decide)).2 demoSession rfl
  have h2 := (vote_spec demoStore 2 "s" "v1" Option.none (by decide)).2 demoSession rfl
  exact ⟨(h1.2 ⟨"o1", "Bob", Role.observer, Option.none, "cat", Option.none⟩ rfl).1 rfl,
         ((h2.2 ⟨"v1", "Ann", Role.voter, some "5", "dog", Option.none⟩ rfl).2 rfl).1⟩

/-! ## Claim C7: the observer-vote invariant -/

theorem mem_putSession {st : Store} {s : Session} {kv : String × Session}
    (h : kv ∈ putSession st s) : kv ∈ st ∨ kv = (s.id, s) := by
  induction st with
  | nil => simp [putSession] at h; simp [h]
  | cons kv0 rest ih =>
      rcases kv0 with ⟨k1, s1⟩
      by_cases h1 : k1 = s.id
      · simp only [putSession, if_pos h1] at h
        rcases List.mem_cons.mp h with h | h
        · exact Or.inr (by simp [h, h1])
        · exact Or.inl (by simp [h])
      · simp only [putSession, if_neg h1] at h
        rcases List.mem_cons.mp h with h | h
        · exact Or.inl (by simp [h])
        · rcases ih h with h' | h'
          · exact Or.inl (by simp [h'])
          · exact Or.inr h'

theorem getSession_mem {st : Store} {k : String} {s : Session}
    (h : getSession st k = some s) : (k, s) ∈ st := by
  induction st with
  | nil => simp [getSession] at h
  | cons kv rest ih =>
      rcases kv with ⟨k1, s1⟩
      by_cases h1 : k1 = k
      · simp only [getSession, if_pos h1] at h
        obtain rfl : s1 = s := Option.some.inj h
        simp [h1]
      · simp only [getSession, if_neg h1] at h
        exact List.mem_cons_of_mem _ (ih h)

theorem observerVotesNull_putSession {st : Store} {s : Session}
    (hinv : ObserverVotesNull st)
    (hs : ∀ p ∈ s.participants, p.role = Role.observer → p.vote = Option.none) :
    ObserverVotesNull (putSession st s) := by
  intro kv hkv p hp ho
  rcases mem_putSession hkv with h | h
  · exact hinv kv h p hp ho
  · subst h
    exact hs p hp ho

theorem observerVotesNull_getSession {st : Store} {k : String} {s : Session}
    (hinv : ObserverVotesNull st) (hg : getSession st k = some s) :
    ∀ p ∈ s.participants, p.role = Role.observer → p.vote = Option.none :=
  hinv (k, s) (getSession_mem hg)

theorem step_preserves (st : Store) (now : Int) (op : Op)
    (hinv : ObserverVotesNull st) (hok : okOp st op = true) :
    ObserverVotesNull (step st now op) := by
  cases op with
  | createOp id name =>
      simp only [step]
      exact observerVotesNull_putSession hinv (by simp [createSession])
  | joinOp sid pid nm role av =>
      simp only [step]
      cases hg : getSession st sid with
      | none =>
          simp only [addParticipant, hg, createSession, List.find?, updateSession]
          refine observerVotesNull_putSession hinv ?_
          intro p hp ho
          simp only [List.nil_append, List.mem_singleton] at hp
          simp [hp]
      | some s =>
          cases hfind : s.participants.find? (fun p => p.id = pid) with
          | none =>
              simp only [addParticipant, hg, hfind, updateSession]
              refine observerVotesNull_putSession hinv ?_
              intro p hp ho
              rcases List.mem_append.mp hp with hp | hp
              · exact observerVotesNull_getSession hinv hg p hp ho
              · simp only [List.mem_singleton] at hp
                simp [hp]
          | some existing =>
              have hex_mem : existing ∈ s.participants :=
                List.mem_of_find?_eq_some hfind
              have hex_id : existing.id = pid := by
                have := List.find?_some hfind
                simpa using this
              obtain ⟨pre, post, hl, hpre, hqid, hu⟩ :=
                updateFirst_decomp (fun _ =>
                  (⟨pid, nm, role, existing.vote,
                    if existing.avatar = "" then av else existing.avatar,
                    existing.lastHeartbeat⟩ : Participant)) hfind
              simp only [addParticipant, hg, hfind, updateSession]
              refine observerVotesNull_putSession hinv ?_
              rw [hu]
              intro p hp ho
              rcases List.mem_append.mp hp with hp | hp
              · exact observerVotesNull_getSession hinv hg p (by rw [hl]; exact List.mem_append_left _ hp) ho
              · rcases List.mem_cons.mp hp with hp | hp
                · subst hp
                  simp only at ho ⊢
                  subst ho
                  simp only [okOp, hg] at hok
                  rw [if_pos trivial, List.all_eq_true] at hok
                  have h5 := hok existing hex_mem
                  rw [if_pos hex_id] at h5
                  simpa using h5
                · exact observerVotesNull_getSession hinv hg p
                    (by rw [hl]; exact List.mem_append_right _ (List.mem_cons_of_mem _ hp)) ho
  | voteOp sid pid v =>
      simp only [step]
      cases hg : getSession st sid with
      | none => simp only [vote, hg]; exact hinv
      | some s =>
          cases hfind : s.participants.find? (fun p => p.id = pid) with
          | none => simp only [vote, hg, hfind]; exact hinv
          | some q =>
              by_cases hrole : q.role = Role.voter
              · obtain ⟨pre, post, hl, hpre, hqid, hu⟩ :=
                  updateFirst_decomp (fun p => { p with vote := v }) hfind
                simp only [vote, hg, hfind, if_pos hrole, updateSession]
                refine observerVotesNull_putSession hinv ?_
                rw [hu]
                intro p hp ho
                rcases List.mem_append.mp hp with hp | hp
                · exact observerVotesNull_getSession hinv hg p (by rw [hl]; exact List.mem_append_left _ hp) ho
                · rcases List.mem_cons.mp hp with hp | hp
                  · subst hp
                    simp only at ho
                    rw [hrole] at ho
                    exact absurd ho (by simp)
                  · exact observerVotesNull_getSession hinv hg p
                      (by rw [hl]; exact List.mem_append_right _ (List.mem_cons_of_mem _ hp)) ho
              · simp only [vote, hg, hfind, if_neg hrole]; exact hinv
  | revealOp sid =>
      simp only [step]
      cases hg : getSession st sid with
      | none => simp only [reveal, hg]; exact hinv
      | some s =>
          simp only [reveal, hg, updateSession]
          refine observerVotesNull_putSession hinv ?_
          intro p hp ho
          exact observerVotesNull_getSession hinv hg p hp ho
  | resetOp sid =>
      simp only [step]
      cases hg : getSession st sid with
      | none => simp only [reset, hg]; exact hinv
      | some s =>
          simp only [reset, hg, updateSession]
          refine observerVotesNull_putSession hinv ?_
          intro p hp ho
          rcases List.mem_map.mp hp with ⟨q, hq, hpq⟩
          by_cases hv : q.role = Role.voter
          · rw [if_pos hv] at hpq
            subst hpq
            rfl
          · rw [if_neg hv] at hpq
            subst hpq
            exact observerVotesNull_getSession hinv hg q hq ho
  | storyOp sid story locked =>
      simp only [step]
      cases hg : getSession st sid with
      | none => simp only [updateStory, hg]; exact hinv
      | some s =>
          simp only [updateStory, hg, updateSession]
          refine observerVotesNull_putSession hinv ?_
          intro p hp ho
          exact observerVotesNull_getSession hinv hg p hp ho
  | avatarOp sid pid av =>
      simp only [step]
      cases hg : getSession st sid with
      | none => simp only [updateAvatar, hg]; exact hinv
      | some s =>
          cases hfind : s.participants.find? (fun p => p.id = pid) with
          | none => simp only [updateAvatar, hg, hfind]; exact hinv
          | some q =>
              obtain ⟨pre, post, hl, hpre, hqid, hu⟩ :=
                updateFirst_decomp (fun p => { p with avatar := av }) hfind
              simp only [updateAvatar, hg, hfind, updateSession]
              refine observerVotesNull_putSession hinv ?_
              rw [hu]
              intro p hp ho
              rcases List.mem_append.mp hp with hp | hp
              · exact observerVotesNull_getSession hinv hg p (by rw [hl]; exact List.mem_append_left _ hp) ho
              · rcases List.mem_cons.mp hp with hp | hp
                · subst hp
                  simp only at ho ⊢
                  exact observerVotesNull_getSession hinv hg q (by rw [hl]; exact List.mem_append_right _ (List.mem_cons_self _ _)) ho
                · exact observerVotesNull_getSession hinv hg p
                    (by rw [hl]; exact List.mem_append_right _ (List.mem_cons_of_mem _ hp)) ho
  | heartbeatOp sid pid =>
      simp only [step]
      cases hg : getSession st sid with
      | none => simp only [updateHeartbeat, hg]; exact hinv
      | some s =>
          cases hfind : s.participants.find? (fun p => p.id = pid) with
          | none => simp only [updateHeartbeat, hg, hfind]; exact hinv
          | some q =>
              obtain ⟨pre, post, hl, hpre, hqid, hu⟩ :=
                updateFirst_decomp (fun p => { p with lastHeartbeat := some now }) hfind
              simp only [updateHeartbeat, hg, hfind, updateSession]
              refine observerVotesNull_putSession hinv ?_
              rw [hu]
              intro p hp ho
              rcases List.mem_append.mp hp with hp | hp
              · exact observerVotesNull_getSession hinv hg p (by rw [hl]; exact List.mem_append_left _ hp) ho
              · rcases List.mem_cons.mp hp with hp | hp
                · subst hp
                  simp only at ho ⊢
                  exact observerVotesNull_getSession hinv hg q (by rw [hl]; exact List.mem_append_right _ (List.mem_cons_self _ _)) ho
                · exact observerVotesNull_getSession hinv hg p
                    (by rw [hl]; exact List.mem_append_right _ (List.mem_cons_of_mem _ hp)) ho
  | leaveOp sid pid =>
      simp only [step]
      cases hg : getSession st sid with
      | none => simp only [removeParticipant, hg]; exact hinv
      | some s =>
          cases hfind : s.participants.find? (fun p => p.id = pid) with
          | none => simp only [removeParticipant, hg, hfind]; exact hinv
          | some q =>
              simp only [removeParticipant, hg, hfind, updateSession]
              refine observerVotesNull_putSession hinv ?_
              intro p hp ho
              exact observerVotesNull_getSession hinv hg p (List.mem_of_mem_filter hp) ho

theorem run_preserves (ops : List (Int × Op)) :
    ∀ st, ObserverVotesNull st → okTrace st ops = true →
      ObserverVotesNull (run st ops) := by
  induction ops with
  | nil => intro st h _; exact h
  | cons p rest ih =>
      rcases p with ⟨now, op⟩
      intro st hinv hok
      simp only [okTrace, Bool.and_eq_true] at hok
      exact ih _ (step_preserves st now op hinv hok.1) hok.2

/-- C7 fails on the code: after join as voter, vote "5", rejoin as observer
(the rejoin updates the role but preserves the vote), the store holds an
observer whose vote is `"5"`, not null. -/
theorem observer_vote_counterexample :
    ¬ ObserverVotesNull (run [] c7Trace) := by decide

/-- C7 as amended: the observer-vote invariant holds for every state
reachable from the empty store by a sequence of create, join/rejoin, vote,
reveal, reset, updateStory, updateAvatar, heartbeat and leave operations in
which no join assigns the observer role to a participant currently holding a
non-null vote. -/
theorem observerVotesNull_of_okTrace (ops : List (Int × Op))
    (h : okTrace [] ops = true) : ObserverVotesNull (run [] ops) :=
  run_preserves ops [] (fun kv hkv => absurd hkv (by simp)) h

/-- Closed instance of the amended C7 on a concrete compliant trace. -/
theorem observerVotesNull_of_okTrace_witness :
    okTrace [] c7GoodTrace = true ∧ ObserverVotesNull (run [] c7GoodTrace) :=
  ⟨by decide, observerVotesNull_of_okTrace c7GoodTrace (by decide)⟩

/-! ## Claim C6: history deduplication -/

theorem exists_decomp_cons {α : Type} (hd : α) (tl : List α)
    (P : List α → α → List α → Prop) :
    (∃ a e b, hd :: tl = a ++ e :: b ∧ P a e b) ↔
      P [] hd tl ∨ ∃ a e b, tl = a ++ e :: b ∧ P (hd :: a) e b := by
  constructor
  · rintro ⟨a, e, b, heq, hp⟩
    cases a with
    | nil =>
        simp only [List.nil_append] at heq
        injection heq with h1 h2
        subst h1
        subst h2
        exact Or.inl hp
    | cons a0 a' =>
        simp only [List.cons_append] at heq
        injection heq with h1 h2
        subst h1
        exact Or.inr ⟨a', e, b, h2, hp⟩
  · rintro (hp | ⟨a, e, b, heq, hp⟩)
    · exact ⟨[], hd, tl, rfl, hp⟩
    · exact ⟨hd :: a, e, b, by simp [heq], hp⟩

theorem mem_setAdd {s : List String} {x y : String} :
    x ∈ setAdd s y ↔ x ∈ s ∨ x = y := by
  unfold setAdd
  by_cases h : y ∈ s
  · rw [if_pos h]
    exact ⟨Or.inl, fun hx => hx.elim id fun he => he ▸ h⟩
  · rw [if_neg h]
    simp

theorem lastOcc_foldl_mem (l : List HistoryEntry) :
    ∀ (seen ids : List String) (x : String),
      x ∈ (l.foldl lastOccLoop (seen, ids)).2 ↔
        x ∈ ids ∨ ∃ a e b, l = a ++ e :: b ∧ HistoryEntry.id e = x ∧
          HistoryEntry.vote e ∉ seen ∧
          ∀ e2 ∈ a, HistoryEntry.vote e2 ≠ HistoryEntry.vote e := by
  induction l with
  | nil =>
      intro seen ids x
      simp only [List.foldl_nil]
      constructor
      · exact Or.inl
      · rintro (h | ⟨a, e, b, heq, _⟩)
        · exact h
        · exact absurd heq (by cases a <;> simp)
  | cons hd tl ih =>
      intro seen ids x
      simp only [List.foldl_cons]
      rw [exists_decomp_cons hd tl (fun a e b => HistoryEntry.id e = x ∧
        HistoryEntry.vote e ∉ seen ∧
        ∀ e2 ∈ a, HistoryEntry.vote e2 ≠ HistoryEntry.vote e)]
      by_cases hmem : hd.vote ∈ seen
      · rw [show lastOccLoop (seen, ids) hd = (seen, ids) from by
          simp [lastOccLoop, hmem]]
        rw [ih seen ids x]
        constructor
        · rintro (h | ⟨a, e, b, heq, hid, hnv, hall⟩)
          · exact Or.inl h
          · refine Or.inr (Or.inr ⟨a, e, b, heq, hid, hnv, ?_⟩)
            intro e2 he2
            rcases List.mem_cons.mp he2 with he2 | he2
            · subst he2
              intro hcontra
              exact hnv (hcontra ▸ hmem)
            · exact hall e2 he2
        · rintro (h | ⟨hid, hnv, _⟩ | ⟨a, e, b, heq, hid, hnv, hall⟩)
          · exact Or.inl h
          · exact absurd hmem hnv
          · exact Or.inr ⟨a, e, b, heq, hid, hnv, fun e2 he2 =>
              hall e2 (List.mem_cons_of_mem _ he2)⟩
      · rw [show lastOccLoop (seen, ids) hd = (seen ++ [hd.vote], setAdd ids hd.id) from by
          simp [lastOccLoop, hmem]]
        rw [ih (seen ++ [hd.vote]) (setAdd ids hd.id) x]
        constructor
        · rintro (h | ⟨a, e, b, heq, hid, hnv, hall⟩)
          · rcases mem_setAdd.mp h with h | h
            · exact Or.inl h
            · exact Or.inr (Or.inl ⟨h.symm, hmem, by simp⟩)
          · have hnv1 : HistoryEntry.vote e ∉ seen := fun hc =>
              hnv (List.mem_append_left _ hc)
            have hnv2 : HistoryEntry.vote e ≠ hd.vote := fun hc =>
              hnv (List.mem_append_right _ (by simp [hc]))
            refine Or.inr (Or.inr ⟨a, e, b, heq, hid, hnv1, ?_⟩)
            intro e2 he2
            rcases List.mem_cons.mp he2 with he2 | he2
            · subst he2
              exact fun hc => hnv2 hc.symm
            · exact hall e2 he2
        · rintro (h | ⟨hid, _, _⟩ | ⟨a, e, b, heq, hid, hnv, hall⟩)
          · exact Or.inl (mem_setAdd.mpr (Or.inl h))
          · exact Or.inl (mem_setAdd.mpr (Or.inr hid.symm))
          · have hne : HistoryEntry.vote hd ≠ HistoryEntry.vote e :=
              hall hd (List.mem_cons_self _ _)
            refine Or.inr ⟨a, e, b, heq, hid, ?_, fun e2 he2 =>
              hall e2 (List.mem_cons_of_mem _ he2)⟩
            intro hc
            rcases List.mem_append.mp hc with hc | hc
            · exact hnv hc
            · have hc' : HistoryEntry.vote e = HistoryEntry.vote hd := by
                simpa using hc
              exact hne hc'.symm

/-- C6: an id is returned by `getLastOccurrenceIds` exactly when it is the id
of an entry no later entry shares a vote value with — the newest occurrence
of each distinct vote value, as the spec's backward scan computes it — and on
the worked example `[(A,5),(B,8),(C,5)]` the result is the set `{B, C}`
(returned in scan order as `["C", "B"]`). -/
theorem getLastOccurrenceIds_spec :
    (∀ (history : List HistoryEntry) (x : String),
      x ∈ getLastOccurrenceIds history ↔
        ∃ pre e post, history = pre ++ e :: post ∧ HistoryEntry.id e = x ∧
          ∀ e2 ∈ post, HistoryEntry.vote e2 ≠ HistoryEntry.vote e) ∧
    getLastOccurrenceIds c6Example = ["C", "B"] := by
  refine ⟨?_, rfl⟩
  intro history x
  unfold getLastOccurrenceIds
  rw [lastOcc_foldl_mem]
  simp only [List.not_mem_nil, false_or]
  constructor
  · rintro ⟨a, e, b, heq, hid, _, hall⟩
    refine ⟨b.reverse, e, a.reverse, ?_, hid, ?_⟩
    · rw [← List.reverse_reverse history, heq]
      simp
    · intro e2 he2
      exact hall e2 (by simpa using he2)
  · rintro ⟨pre, e, post, heq, hid, hall⟩
    refine ⟨post.reverse, e, pre.reverse, ?_, hid, by simp, ?_⟩
    · rw [heq]
      simp
    · intro e2 he2
      exact hall e2 (by simpa using he2)

/-! ## Claims C1 and C10: the result classifier

The JS object built by the `reduce` is characterised through `cnt`: after the
fold, the stored count of every key is its multiplicity in the vote list, the
keys are exactly the distinct votes, and the keys are duplicate-free. -/

theorem cnt_bump (acc : List (String × Nat)) (v w : String) :
    cnt (bump acc v) w = if w = v then cnt acc w + 1 else cnt acc w := by
  induction acc with
  | nil =>
      by_cases h : w = v
      · subst h; simp [bump, cnt]
      · simp [bump, cnt, h, Ne.symm h]
  | cons kv rest ih =>
      rcases kv with ⟨k, n⟩
      by_cases hk : k = v
      · subst hk
        have hb : bump ((k, n) :: rest) k = (k, n + 1) :: rest := by
          simp [bump]
        rw [hb]
        by_cases hw : k = w
        · subst hw
          have e1 : cnt ((k, n + 1) :: rest) k = n + 1 + cnt rest k := by
            simp [cnt]
          have e2 : cnt ((k, n) :: rest) k = n + cnt rest k := by
            simp [cnt]
          rw [e1, if_pos rfl, e2]
          omega
        · have hw' : ¬ w = k := fun h => hw h.symm
          have e1 : cnt ((k, n + 1) :: rest) w = cnt rest w := by
            simp [cnt, hw]
          have e2 : cnt ((k, n) :: rest) w = cnt rest w := by
            simp [cnt, hw]
          rw [e1, if_neg hw', e2]
      · have hb : bump ((k, n) :: rest) v = (k, n) :: bump rest v := by
          simp [bump, hk]
        rw [hb]
        by_cases hw : k = w
        · subst hw
          have e1 : cnt ((k, n) :: bump rest v) k = n + cnt (bump rest v) k := by
            simp [cnt]
          have e2 : cnt ((k, n) :: rest) k = n + cnt rest k := by
            simp [cnt]
          rw [e1, ih, if_neg hk, if_neg hk, e2]
        · have e1 : cnt ((k, n) :: bump rest v) w = cnt (bump rest v) w := by
            simp [cnt, hw]
          have e2 : cnt ((k, n) :: rest) w = cnt rest w := by
            simp [cnt, hw]
          rw [e1, ih]
          simp only [e2]

theorem keys_bump (acc : List (String × Nat)) (v : String) :
    (bump acc v).map Prod.fst =
      if v ∈ acc.map Prod.fst then acc.map Prod.fst
      else acc.map Prod.fst ++ [v] := by
  induction acc with
  | nil => simp [bump]
  | cons kv rest ih =>
      rcases kv with ⟨k, n⟩
      by_cases hk : k = v
      · subst hk; simp [bump]
      · simp only [bump, if_neg hk, List.map_cons]
        rw [ih]
        by_cases hv : v ∈ rest.map Prod.fst
        · rw [if_pos hv, if_pos (by simp [hv])]
        · rw [if_neg hv, if_neg (by simp [hv, Ne.symm hk])]
          simp

theorem mem_keys_bump (acc : List (String × Nat)) (v w : String) :
    w ∈ (bump acc v).map Prod.fst ↔ w ∈ acc.map Prod.fst ∨ w = v := by
  rw [keys_bump]
  by_cases hv : v ∈ acc.map Prod.fst
  · rw [if_pos hv]
    exact ⟨Or.inl, fun h => h.elim id fun he => he ▸ hv⟩
  · rw [if_neg hv]
    simp

theorem nodup_keys_bump (acc : List (String × Nat)) (v : String)
    (h : (acc.map Prod.fst).Nodup) : ((bump acc v).map Prod.fst).Nodup := by
  rw [keys_bump]
  by_cases hv : v ∈ acc.map Prod.fst
  · rw [if_pos hv]; exact h
  · rw [if_neg hv]
    rw [List.nodup_append]
    exact ⟨h, List.nodup_singleton v, List.disjoint_singleton.mpr hv⟩

theorem cnt_foldl (l : List String) :
    ∀ (acc : List (String × Nat)) (w : String),
      cnt (l.foldl bump acc) w = cnt acc w + List.count w l := by
  induction l with
  | nil => intro acc w; simp
  | cons v rest ih =>
      intro acc w
      simp only [List.foldl_cons]
      rw [ih (bump acc v) w, cnt_bump]
      by_cases h : w = v
      · subst h
        rw [if_pos rfl, List.count_cons_self]
        omega
      · rw [if_neg h, List.count_cons_of_ne h]

theorem keys_foldl_mem (l : List String) :
    ∀ (acc : List (String × Nat)) (w : String),
      w ∈ (l.foldl bump acc).map Prod.fst ↔ w ∈ acc.map Prod.fst ∨ w ∈ l := by
  induction l with
  | nil => intro acc w; simp
  | cons v rest ih =>
      intro acc w
      simp only [List.foldl_cons]
      rw [ih (bump acc v) w, mem_keys_bump]
      constructor
      · rintro ((h | h) | h)
        · exact Or.inl h
        · exact Or.inr (by simp [h])
        · exact Or.inr (by simp [h])
      · rintro (h | h)
        · exact Or.inl (Or.inl h)
        · rcases List.mem_cons.mp h with h | h
          · exact Or.inl (Or.inr h)
          · exact Or.inr h

theorem keys_foldl_nodup (l : List String) :
    ∀ acc : List (String × Nat), (acc.map Prod.fst).Nodup →
      ((l.foldl bump acc).map Prod.fst).Nodup := by
  induction l with
  | nil => intro acc h; exact h
  | cons v rest ih =>
      intro acc h
      simp only [List.foldl_cons]
      exact ih (bump acc v) (nodup_keys_bump acc v h)

theorem cnt_eq_zero_of_not_mem (acc : List (String × Nat)) (w : String) :
    w ∉ acc.map Prod.fst → cnt acc w = 0 := by
  induction acc with
  | nil => intro _; rfl
  | cons kv rest ih =>
      rcases kv with ⟨k, n⟩
      intro h
      simp only [List.map_cons, List.mem_cons] at h
      push_neg at h
      simp only [cnt, if_neg (fun hk : k = w => h.1 hk.symm)]
      exact ih h.2

theorem mem_pair_iff (acc : List (String × Nat)) (k : String) (n : Nat) :
    (acc.map Prod.fst).Nodup →
      ((k, n) ∈ acc ↔ k ∈ acc.map Prod.fst ∧ n = cnt acc k) := by
  induction acc with
  | nil => intro _; simp
  | cons kv rest ih =>
      rcases kv with ⟨k1, n1⟩
      intro hnd
      simp only [List.map_cons, List.nodup_cons] at hnd
      constructor
      · intro hmem
        rcases List.mem_cons.mp hmem with hmem | hmem
        · have hk : k = k1 := congrArg Prod.fst hmem
          have hn : n = n1 := congrArg Prod.snd hmem
          subst hk
          subst hn
          refine ⟨by simp, ?_⟩
          have hz := cnt_eq_zero_of_not_mem rest k hnd.1
          simp [cnt, hz]
        · have hk : k ∈ rest.map Prod.fst := by
            exact List.mem_map.mpr ⟨(k, n), hmem, rfl⟩
          have hne : ¬ k1 = k := fun he => hnd.1 (he ▸ hk)
          obtain ⟨-, hn⟩ := (ih hnd.2).mp hmem
          refine ⟨by simp [hk], ?_⟩
          simp only [cnt, if_neg hne]
          exact hn
      · rintro ⟨hkmem, hn⟩
        rcases List.mem_cons.mp hkmem with hk | hk
        · subst hk
          simp only [cnt, if_pos rfl] at hn
          rw [cnt_eq_zero_of_not_mem rest k hnd.1] at hn
          simp [hn]
        · have hne : ¬ k1 = k := fun he => hnd.1 (he ▸ hk)
          simp only [cnt, if_neg hne] at hn
          exact List.mem_cons_of_mem _ ((ih hnd.2).mpr ⟨hk, hn⟩)

theorem voteCounts_cnt (l : List String) (w : String) :
    cnt (voteCounts l) w = List.count w l := by
  unfold voteCounts
  rw [cnt_foldl]
  simp [cnt]

theorem voteCounts_keys_mem (l : List String) (w : String) :
    w ∈ (voteCounts l).map Prod.fst ↔ w ∈ l := by
  unfold voteCounts
  rw [keys_foldl_mem]
  simp

theorem voteCounts_keys_nodup (l : List String) :
    ((voteCounts l).map Prod.fst).Nodup := by
  unfold voteCounts
  exact keys_foldl_nodup l [] (by simp)

theorem mem_voteCounts_iff (l : List String) (k : String) (n : Nat) :
    (k, n) ∈ voteCounts l ↔ k ∈ l ∧ n = List.count k l := by
  rw [mem_pair_iff (voteCounts l) k n (voteCounts_keys_nodup l)]
  rw [voteCounts_keys_mem, voteCounts_cnt]

theorem le_foldl_max (l : List Nat) (a : Nat) :
    a ≤ l.foldl max a ∧ ∀ x ∈ l, x ≤ l.foldl max a := by
  induction l generalizing a with
  | nil => simp
  | cons b t ih =>
      refine ⟨le_trans (le_max_left a b) (ih (max a b)).1, ?_⟩
      intro x hx
      rcases List.mem_cons.mp hx with hx | hx
      · subst hx
        exact le_trans (le_max_right a x) (ih (max a x)).1
      · exact (ih (max a b)).2 x hx

theorem foldl_max_eq_or_mem (l : List Nat) (a : Nat) :
    l.foldl max a = a ∨ l.foldl max a ∈ l := by
  induction l generalizing a with
  | nil => exact Or.inl rfl
  | cons b t ih =>
      simp only [List.foldl_cons]
      rcases ih (max a b) with h | h
      · rcases max_choice a b with hm | hm
        · exact Or.inl (h.trans hm)
        · exact Or.inr (by rw [h, hm]; exact List.mem_cons_self _ _)
      · exact Or.inr (List.mem_cons_of_mem _ h)

theorem maxCount_eq_specMaxFreq (l : List String) :
    maxCount l = specMaxFreq l := by
  unfold maxCount specMaxFreq
  apply le_antisymm
  · rcases foldl_max_eq_or_mem ((voteCounts l).map Prod.snd) 0 with h | h
    · rw [h]
      exact Nat.zero_le _
    · obtain ⟨⟨k, n⟩, hmem, hsnd⟩ := List.mem_map.mp h
      obtain ⟨hkl, hcnt⟩ := (mem_voteCounts_iff l k n).mp hmem
      have h2 : ((voteCounts l).map Prod.snd).foldl max 0 = n := hsnd.symm
      rw [h2, hcnt]
      exact @Finset.le_sup Nat String _ _ l.toFinset
        (fun v => List.count v l) k (List.mem_toFinset.mpr hkl)
  · apply Finset.sup_le
    intro v hv
    have hvl : v ∈ l := List.mem_toFinset.mp hv
    have hmem : (v, List.count v l) ∈ voteCounts l :=
      (mem_voteCounts_iff l v _).mpr ⟨hvl, rfl⟩
    have hmem2 : List.count v l ∈ (voteCounts l).map Prod.snd :=
      List.mem_map.mpr ⟨(v, List.count v l), hmem, rfl⟩
    exact (le_foldl_max _ 0).2 _ hmem2

theorem majorityVotes_nodup (l : List String) : (majorityVotes l).Nodup := by
  unfold majorityVotes
  exact List.Nodup.sublist
    (List.Sublist.map Prod.fst (List.filter_sublist (voteCounts l)))
    (voteCounts_keys_nodup l)

theorem mem_majorityVotes (l : List String) (x : String) :
    x ∈ majorityVotes l ↔ x ∈ l ∧ List.count x l = maxCount l := by
  unfold majorityVotes
  constructor
  · intro hx
    obtain ⟨⟨k, n⟩, hmem, hfst⟩ := List.mem_map.mp hx
    obtain ⟨hmem, hcond⟩ := List.mem_filter.mp hmem
    obtain ⟨hkl, hn⟩ := (mem_voteCounts_iff l k n).mp hmem
    have hfst' : k = x := hfst
    subst hfst'
    have hcm : n = maxCount l := by simpa using hcond
    exact ⟨hkl, by rw [← hn, hcm]⟩
  · rintro ⟨hx, hc⟩
    refine List.mem_map.mpr ⟨(x, List.count x l), ?_, rfl⟩
    refine List.mem_filter.mpr ⟨(mem_voteCounts_iff l x _).mpr ⟨hx, rfl⟩, ?_⟩
    simpa using hc

theorem majorityVotes_length_eq_card (l : List String) :
    (majorityVotes l).length = (specTiedSet l).card := by
  rw [← List.toFinset_card_of_nodup (majorityVotes_nodup l)]
  congr 1
  apply Finset.ext
  intro x
  rw [List.mem_toFinset, mem_majorityVotes]
  unfold specTiedSet
  rw [Finset.mem_filter, List.mem_toFinset, maxCount_eq_specMaxFreq]

theorem consensus_conds_iff (l : List String) (hne : l ≠ []) :
    ((majorityVotes l).length = 1 ∧ maxCount l = l.length) ↔
      ∀ v ∈ l, ∀ w ∈ l, v = w := by
  constructor
  · rintro ⟨-, hmax⟩
    rcases foldl_max_eq_or_mem ((voteCounts l).map Prod.snd) 0 with h | h
    · exfalso
      unfold maxCount at hmax
      rw [h] at hmax
      exact hne (List.length_eq_zero.mp hmax.symm)
    · obtain ⟨⟨k, n⟩, hmem, hsnd⟩ := List.mem_map.mp h
      obtain ⟨hkl, hcnt⟩ := (mem_voteCounts_iff l k n).mp hmem
      simp only at hsnd hcnt
      have hcl : List.count k l = l.length := by
        rw [← hcnt]
        unfold maxCount at hmax
        rw [← hmax, hsnd]
      have hall := List.count_eq_length.mp hcl
      intro v hv w hw
      rw [← hall v hv, ← hall w hw]
  · intro hall
    obtain ⟨a, t, rfl⟩ := List.exists_cons_of_ne_nil hne
    have ha : a ∈ a :: t := List.mem_cons_self _ _
    have hcount : List.count a (a :: t) = (a :: t).length :=
      List.count_eq_length.mpr fun b hb => hall a ha b hb
    have hmax : maxCount (a :: t) = (a :: t).length := by
      rw [maxCount_eq_specMaxFreq]
      unfold specMaxFreq
      apply le_antisymm
      · exact Finset.sup_le fun v _ => List.count_le_length v (a :: t)
      · rw [← hcount]
        exact @Finset.le_sup Nat String _ _ (a :: t).toFinset
          (fun v => List.count v (a :: t)) a (List.mem_toFinset.mpr ha)
    have htf : (a :: t).toFinset = {a} := by
      apply Finset.ext
      intro x
      simp only [List.mem_toFinset, Finset.mem_singleton]
      exact ⟨fun hx => hall x hx a ha, fun hx => hx ▸ ha⟩
    have hcard : (specTiedSet (a :: t)).card = 1 := by
      unfold specTiedSet
      rw [htf, Finset.filter_singleton, if_pos]
      · rfl
      · rw [← maxCount_eq_specMaxFreq, hmax, hcount]
    exact ⟨by rw [majorityVotes_length_eq_card, hcard], hmax⟩

/-- C1: the classifier of the code agrees with the spec's reference
classification on every participant list, and in particular a single voter
with one vote is classified `'majority'`, never `'consensus'`. -/
theorem getResultType_eq_spec :
    (∀ ps, getResultType ps = specResultType ps) ∧
    getResultType [⟨"p", "ann", Role.voter, some "5", "dog", Option.none⟩] =
      ResultType.majority := by
  refine ⟨?_, rfl⟩
  intro ps
  simp only [getResultType, specResultType]
  generalize allVotes ps = V
  cases V with
  | nil => simp
  | cons a t =>
      have hne : a :: t ≠ [] := by simp
      rw [if_neg (show ¬ (a :: t).length = 0 by simp),
          if_neg (show ¬ (a :: t).isEmpty = true by simp)]
      have hlen := majorityVotes_length_eq_card (a :: t)
      by_cases hcons : 1 < (a :: t).length ∧ ∀ v ∈ a :: t, ∀ w ∈ a :: t, v = w
      · rw [if_pos hcons]
        have hcc := (consensus_conds_iff (a :: t) hne).mpr hcons.2
        rw [if_pos (show (a :: t).length > 1 ∧
            (majorityVotes (a :: t)).length = 1 ∧
            maxCount (a :: t) = (a :: t).length from ⟨hcons.1, hcc.1, hcc.2⟩)]
      · rw [if_neg hcons]
        rw [if_neg (show ¬ ((a :: t).length > 1 ∧
            (majorityVotes (a :: t)).length = 1 ∧
            maxCount (a :: t) = (a :: t).length) from fun hc => hcons
          ⟨hc.1, (consensus_conds_iff (a :: t) hne).mp ⟨hc.2.1, hc.2.2⟩⟩)]
        by_cases hj : 2 ≤ (specTiedSet (a :: t)).card
        · rw [if_pos (show (majorityVotes (a :: t)).length > 1 by omega),
              if_pos hj]
        · rw [if_neg (show ¬ (majorityVotes (a :: t)).length > 1 by omega),
              if_neg hj]

theorem getResultType_consensus_iff (ps : List Participant) :
    getResultType ps = ResultType.consensus ↔
      1 < (allVotes ps).length ∧
        ∀ v ∈ allVotes ps, ∀ w ∈ allVotes ps, v = w := by
  simp only [getResultType]
  generalize allVotes ps = V
  cases V with
  | nil => simp
  | cons a t =>
      have hne : a :: t ≠ [] := by simp
      rw [if_neg (show ¬ (a :: t).length = 0 by simp)]
      by_cases hc : (a :: t).length > 1 ∧ (majorityVotes (a :: t)).length = 1 ∧
          maxCount (a :: t) = (a :: t).length
      · rw [if_pos hc]
        constructor
        · intro _
          exact ⟨hc.1, (consensus_conds_iff (a :: t) hne).mp ⟨hc.2.1, hc.2.2⟩⟩
        · intro _; rfl
      · rw [if_neg hc]
        constructor
        · intro h
          split_ifs at h
        · rintro ⟨h1, hall⟩
          have := (consensus_conds_iff (a :: t) hne).mpr hall
          exact absurd ⟨h1, this.1, this.2⟩ hc

/-- C10: `getConsensusVote` returns a value exactly when `getResultType`
classifies the same participants as `'consensus'`, and the returned value is
the vote every voter cast. -/
theorem getConsensusVote_spec (ps : List Participant) :
    ((getConsensusVote ps).isSome ↔ getResultType ps = ResultType.consensus) ∧
    ∀ v, getConsensusVote ps = some v → ∀ w ∈ allVotes ps, w = v := by
  constructor
  · rw [getResultType_consensus_iff]
    simp only [getConsensusVote]
    generalize allVotes ps = V
    cases V with
    | nil => simp
    | cons a t =>
        by_cases hlen : (a :: t).length < 2
        · rw [if_pos hlen]
          simp only [Option.isSome_none, Bool.false_eq_true, false_iff]
          rintro ⟨h1, -⟩
          simp only [List.length_cons] at h1 hlen
          omega
        · rw [if_neg hlen]
          show (if (t.all fun v => v = a) = true then some a
              else Option.none).isSome = true ↔ _
          by_cases hall : ∀ v ∈ t, v = a
          · rw [if_pos (show (t.all fun v => v = a) = true from by
              rw [List.all_eq_true]; intro v hv; simpa using hall v hv)]
            simp only [Option.isSome_some, true_iff]
            refine ⟨by simp only [List.length_cons] at hlen ⊢; omega, ?_⟩
            intro v hv w hw
            rcases List.mem_cons.mp hv with hv | hv <;>
              rcases List.mem_cons.mp hw with hw | hw
            · rw [hv, hw]
            · rw [hv, hall w hw]
            · rw [hall v hv, hw]
            · rw [hall v hv, hall w hw]
          · rw [if_neg (show ¬ (t.all fun v => v = a) = true from by
              rw [List.all_eq_true]
              intro hc
              exact hall fun v hv => by simpa using hc v hv)]
            simp only [Option.isSome_none, Bool.false_eq_true, false_iff]
            rintro ⟨-, hequal⟩
            exact hall fun v hv =>
              hequal v (List.mem_cons_of_mem _ hv) a (List.mem_cons_self _ _)
  · intro v hv w hw
    simp only [getConsensusVote] at hv
    revert hw
    generalize allVotes ps = V at hv ⊢
    cases V with
    | nil => simp at hv
    | cons a t =>
        by_cases hlen : (a :: t).length < 2
        · rw [if_pos hlen] at hv
          simp at hv
        · rw [if_neg hlen] at hv
          intro hw
          have hv' : (if (t.all fun x => x = a) = true then some a
              else Option.none) = some v := hv
          split_ifs at hv' with hall
          · obtain rfl : a = v := Option.some.inj hv'
            rcases List.mem_cons.mp hw with hw | hw
            · exact hw
            · rw [List.all_eq_true] at hall
              simpa using hall w hw

/-- Closed instance of C10: two voters agreeing on "5" yield that consensus
value, and every collected vote equals it. -/
theorem getConsensusVote_spec_witness :
    getConsensusVote
      [⟨"a", "Ann", Role.voter, some "5", "dog", Option.none⟩,
       ⟨"b", "Bob", Role.voter, some "5", "cat", Option.none⟩] = some "5" ∧
    ∀ w ∈ allVotes
      [⟨"a", "Ann", Role.voter, some "5", "dog", Option.none⟩,
       ⟨"b", "Bob", Role.voter, some "5", "cat", Option.none⟩], w = "5" := by
  refine ⟨rfl, ?_⟩
  exact (getConsensusVote_spec
    [⟨"a", "Ann", Role.voter, some "5", "dog", Option.none⟩,
     ⟨"b", "Bob", Role.voter, some "5", "cat", Option.none⟩]).2 "5" rfl

end PlanningPoker
